import Mathlib

/-!
Verification of the cryptostream read-side stream adapters.

The repository's `src/read.rs` contains the public `read::Encryptor` and
`read::Decryptor` wrappers: each wraps the buffering cipher adapter
(`bufread::Encryptor` / `bufread::Decryptor`) over a `BufReader`-wrapped
source, delegates `read` to it, and `finish()` unwraps back to the original
source.  The buffering cipher adapter itself (module `bufread`) and the
cipher engine are not part of the given sources; they are modelled here
from the specification (sections 4.1, 4.2, 6 and 7 of the design spec).

Bytes are modelled as natural numbers, byte buffers as lists.  A byte
source is a finite sequence of read outcomes (a successful chunk or an
I/O error) followed by end-of-data; the `post` field records content of
the underlying object beyond the byte stream, which stream reads never
touch (used to state the frame property of `finish()`).
-/

/-- Byte buffers are lists of naturals. -/
abbrev Bytes := List Nat

/-- Outcome of one pull from the raw byte source: either a chunk of bytes
or an I/O error (spec section 6, byte source capability). -/
inductive SEvent where
  | chunk : Bytes → SEvent
  | ioErr : Nat → SEvent
deriving DecidableEq, Repr

/-- Modelled from the spec: the underlying byte source capability
(`read(buffer) -> count | IoError`, 0 signals end-of-data).  `events` is
the outcome of each successive pull until end-of-data; `post` is content
of the underlying object beyond the byte stream, untouched by stream
reads. -/
structure Source where
  events : List SEvent
  post : Bytes
deriving DecidableEq, Repr

/-- Modelled from the spec: the intermediate read-ahead buffering layer of
section 4.2 (`std::io::BufReader` in `src/read.rs`).  `buf` is its internal
read-ahead buffer; `intoInner` discards it. -/
structure BufReader where
  buf : Bytes
  inner : Source
deriving DecidableEq, Repr

/-- Constructing a `BufReader` performs no read: the buffer starts empty. -/
def BufReader.new (r : Source) : BufReader := ⟨[], r⟩

/-- Unwrapping a `BufReader` returns the raw source, discarding any bytes
still held in the read-ahead buffer. -/
def BufReader.intoInner (b : BufReader) : Source := b.inner

/-- Errors surfaced by the adapter: source I/O errors and cipher engine
errors, kept distinct (spec section 7). -/
inductive Err where
  | srcErr : Nat → Err
  | engErr : Nat → Err
deriving DecidableEq, Repr

/-- Modelled from the spec: the opaque cipher engine capability of
section 6: `update(Engine, input) -> output | EngineError` and
`finalize(Engine) -> output | EngineError`, with explicit engine state of
type `σ`. -/
structure Engine (σ : Type) where
  update : σ → Bytes → Except Nat (σ × Bytes)
  finalize : σ → Except Nat (σ × Bytes)

/-- Modelled from the spec: the cipher-construction capability
`init(algorithm, key, iv) -> Engine | ConfigError`; a value of this type
plays the role of one algorithm choice. -/
structure Cipher (σ : Type) where
  init : Bytes → Bytes → Except Nat (Engine σ × σ)

/-- Modelled from the spec: the buffering cipher adapter of section 4.1
(module `bufread`, not in the given sources).  `pending` is the engine
output not yet delivered; `finalized` records that `finalize` succeeded;
`exhausted` records delivered end-of-stream; `poisoned` records a fatal
engine failure (the poisoning policy recommended by spec sections 7
and 9); `finCount` is a ghost counter of `finalize` invocations. -/
structure Adapter (σ : Type) where
  src : BufReader
  eng : Engine σ
  s : σ
  pending : Bytes
  finalized : Bool
  exhausted : Bool
  poisoned : Option Nat
  finCount : Nat

variable {σ : Type}

/-- Modelled from the spec: construction `new(source, cipher, key, iv)`
of section 4.1.  Initializes the engine (may fail with a configuration
error) and performs no read from the source. -/
def Adapter.new (src : BufReader) (c : Cipher σ) (key iv : Bytes) :
    Except Nat (Adapter σ) :=
  (c.init key iv).map fun p =>
    { src := src, eng := p.1, s := p.2, pending := [], finalized := false,
      exhausted := false, poisoned := none, finCount := 0 }

/-- Modelled from the spec: `finish()` of the buffering adapter returns
ownership of the (buffered) source, discarding the engine and any
residual pending output. -/
def Adapter.finish (st : Adapter σ) : BufReader := st.src

/-- Size of the not-yet-pulled part of the adapter's source; a bound on
how many pulls one `read` call can perform. -/
def Adapter.size (st : Adapter σ) : Nat :=
  st.src.buf.length + st.src.inner.events.length

/-- Modelled from the spec: the body of `read(buffer)` (section 4.1,
steps 1-4), with explicit recursion fuel.  `n` is the caller's buffer
capacity; the returned byte list is what was written into the buffer.
Step 1: exhausted (or poisoned) adapters return immediately.  Step 2:
serve from `pending`.  Step 3: pull one chunk (the read-ahead buffer
first, then the next source event); on end-of-data invoke `finalize`
exactly once; on data invoke `update` and loop back to step 2; a pull
failure surfaces the I/O error with `pending` and `finalized` untouched;
an engine failure poisons the adapter. -/
def readAux : Nat → Nat → Adapter σ → Adapter σ × Except Err Bytes
  | 0, _, st => (st, .ok [])
  | fuel+1, n, st =>
    if st.exhausted then (st, .ok [])
    else match st.poisoned with
    | some e => (st, .error (.engErr e))
    | none =>
      if st.pending = [] then
        if st.finalized then ({ st with exhausted := true }, .ok [])
        else match st.src.buf with
          | b :: bs =>
            match st.eng.update st.s (b :: bs) with
            | .error e =>
              ({ st with src := { st.src with buf := [] }, poisoned := some e },
                .error (.engErr e))
            | .ok p =>
              readAux fuel n
                { st with src := { st.src with buf := [] }, s := p.1, pending := p.2 }
          | [] =>
            match st.src.inner.events with
            | [] =>
              match st.eng.finalize st.s with
              | .error e =>
                ({ st with poisoned := some e, finCount := st.finCount + 1 },
                  .error (.engErr e))
              | .ok p =>
                if p.2 = [] then
                  ({ st with
                      s := p.1
                      finalized := true
                      finCount := st.finCount + 1
                      exhausted := true }, .ok [])
                else
                  ({ st with
                      s := p.1
                      finalized := true
                      finCount := st.finCount + 1
                      pending := p.2.drop n }, .ok (p.2.take n))
            | SEvent.chunk cb :: r =>
              match st.eng.update st.s cb with
              | .error e =>
                ({ st with
                    src := { st.src with inner := { st.src.inner with events := r } }
                    poisoned := some e }, .error (.engErr e))
              | .ok p =>
                readAux fuel n
                  { st with
                      src := { st.src with inner := { st.src.inner with events := r } }
                      s := p.1
                      pending := p.2 }
            | SEvent.ioErr e :: r =>
              ({ st with
                  src := { st.src with inner := { st.src.inner with events := r } } },
                .error (.srcErr e))
      else
        ({ st with pending := st.pending.drop n }, .ok (st.pending.take n))

/-- Modelled from the spec: one `read(buffer)` call on the buffering
cipher adapter.  Returns the new adapter state and either the bytes
written into the caller's buffer (capacity `n`) or an error. -/
def Adapter.read (n : Nat) (st : Adapter σ) : Adapter σ × Except Err Bytes :=
  readAux (st.size + 1) n st

/-- Repeatedly call `read` with per-call buffer capacities `sizes 0`,
`sizes 1`, ... until a read returns zero bytes, concatenating all bytes
produced; `fuel` bounds the number of calls, `none` meaning the fuel was
insufficient. -/
def readAll (sizes : Nat → Nat) (st : Adapter σ) :
    Nat → Option (Except Err (Adapter σ × Bytes))
  | 0 => none
  | fuel+1 =>
    match Adapter.read (sizes 0) st with
    | (_, .error e) => some (.error e)
    | (st', .ok []) => some (.ok (st', []))
    | (st', .ok (b :: bs)) =>
      (readAll (fun i => sizes (i + 1)) st' fuel).map fun r =>
        r.map fun p => (p.1, b :: bs ++ p.2)

/-- Perform the given sequence of `read` calls, returning the final
adapter state and the list of results. -/
def readMany : List Nat → Adapter σ → Adapter σ × List (Except Err Bytes)
  | [], st => (st, [])
  | n :: ms, st =>
    let p := Adapter.read n st
    let q := readMany ms p.1
    (q.1, p.2 :: q.2)

/-- The public `read::Encryptor` wrapper of `src/read.rs` (lines 19-41):
it holds a `bufread::Encryptor` over the `BufReader`-wrapped source. -/
structure Encryptor (σ : Type) where
  reader : Adapter σ

/-- `read::Encryptor::new` (src/read.rs lines 24-28): wrap the source in a
`BufReader` and construct the inner buffered encryptor over it. -/
def Encryptor.new (r : Source) (c : Cipher σ) (key iv : Bytes) :
    Except Nat (Encryptor σ) :=
  (Adapter.new (BufReader.new r) c key iv).map fun a => { reader := a }

/-- `read::Encryptor::finish` (src/read.rs lines 30-32):
`self.reader.finish().into_inner()`. -/
def Encryptor.finish (w : Encryptor σ) : Source :=
  (Adapter.finish w.reader).intoInner

/-- `Read for read::Encryptor` (src/read.rs lines 35-41): delegate the
read call to the inner buffered adapter. -/
def Encryptor.read (n : Nat) (w : Encryptor σ) : Encryptor σ × Except Err Bytes :=
  let p := Adapter.read n w.reader
  ({ reader := p.1 }, p.2)

/-- The public `read::Decryptor` wrapper of `src/read.rs` (lines 48-70):
it holds a `bufread::Decryptor` over the `BufReader`-wrapped source. -/
structure Decryptor (σ : Type) where
  reader : Adapter σ

/-- `read::Decryptor::new` (src/read.rs lines 53-57). -/
def Decryptor.new (r : Source) (c : Cipher σ) (key iv : Bytes) :
    Except Nat (Decryptor σ) :=
  (Adapter.new (BufReader.new r) c key iv).map fun a => { reader := a }

/-- `read::Decryptor::finish` (src/read.rs lines 59-61). -/
def Decryptor.finish (w : Decryptor σ) : Source :=
  (Adapter.finish w.reader).intoInner

/-- `Read for read::Decryptor` (src/read.rs lines 64-70): delegate the
read call to the inner buffered adapter. -/
def Decryptor.read (n : Nat) (w : Decryptor σ) : Decryptor σ × Except Err Bytes :=
  let p := Adapter.read n w.reader
  ({ reader := p.1 }, p.2)

/-- Reference semantics of the engine on a list of source events: feed
each chunk to `update` (stopping at an I/O error event) and end with one
`finalize`, concatenating all outputs.  This is the ideal transform the
adapter must realize. -/
def evOut (E : Engine σ) (s : σ) : List SEvent → Except Err Bytes
  | [] =>
    match E.finalize s with
    | .error e => .error (.engErr e)
    | .ok p => .ok p.2
  | SEvent.chunk cb :: r =>
    match E.update s cb with
    | .error e => .error (.engErr e)
    | .ok p => (evOut E p.1 r).map (p.2 ++ ·)
  | SEvent.ioErr e :: _ => .error (.srcErr e)

/-- The bytes an adapter state still owes its caller: pending output,
followed by the engine transform of the unread part of the source. -/
def Adapter.remOut (st : Adapter σ) : Except Err Bytes :=
  if st.exhausted then .ok []
  else match st.poisoned with
  | some e => .error (.engErr e)
  | none =>
    if st.finalized then .ok st.pending
    else (evOut st.eng st.s st.src.inner.events).map (st.pending ++ ·)

/-- Well-formedness of reachable adapter states: the read-ahead buffer is
drained between reads, `finalize` fires only at end-of-data, and the
ghost invocation counter agrees with the `finalized` / `poisoned`
flags. -/
def Adapter.Inv (st : Adapter σ) : Prop :=
  st.src.buf = [] ∧
  (st.finalized = true → st.src.inner.events = []) ∧
  (st.finalized = true → st.finCount = 1) ∧
  (st.poisoned = none → st.finalized = false → st.finCount = 0) ∧
  st.finCount ≤ 1 ∧
  (1 ≤ st.finCount → st.src.inner.events = []) ∧
  (st.exhausted = true → st.finalized = true ∧ st.pending = [])

/-- A source made of the given chunks, with the given post-stream tail. -/
def mkSource (cs : List Bytes) : Source := ⟨cs.map SEvent.chunk, []⟩

/-- One-chunk event list for a byte string, empty when it is empty. -/
def oneChunk (b : Bytes) : List Bytes := if b = [] then [] else [b]

/-- Key byte used at stream position `i` when the key is cycled. -/
def keyAt (key : Bytes) (i : Nat) : Nat := key.getD (i % key.length) 0

/-- Position-wise exclusive-or of a buffer with the cycled key. -/
def xorCycle (key bs : Bytes) : Bytes :=
  (List.range bs.length).zipWith (fun i b => b ^^^ keyAt key i) bs

/-- A concrete block-cipher-style engine used to exercise the adapter: the
encrypting `update` of block size `B`; it buffers a partial block in the
state and emits only whole processed blocks. -/
def encUpdate (B : Nat) (key : Bytes) (s input : Bytes) : Except Nat (Bytes × Bytes) :=
  let t := s ++ input
  let k := (t.length / B) * B
  .ok (t.drop k, xorCycle key (t.take k))

/-- Encrypting `finalize` of the concrete engine: pad the residual bytes
to a whole block (the pad byte is the pad length, a full block for empty
residue) and emit the processed final block. -/
def encFinalize (B : Nat) (key : Bytes) (s : Bytes) : Except Nat (Bytes × Bytes) :=
  let pad := B - s.length % B
  .ok ([], xorCycle key (s ++ List.replicate pad pad))

/-- Decrypting `update` of the concrete engine: buffer ciphertext and emit
whole processed blocks, always withholding the (possibly final) last full
block until `finalize` can strip the padding. -/
def decUpdate (B : Nat) (key : Bytes) (s input : Bytes) : Except Nat (Bytes × Bytes) :=
  let t := s ++ input
  let nb := t.length / B
  let k := if t.length % B = 0 then (nb - 1) * B else nb * B
  .ok (t.drop k, xorCycle key (t.take k))

/-- Decrypting `finalize` of the concrete engine: the residue must be one
whole block; process it, check the padding, and emit the unpadded bytes.
Fails on corrupt ciphertext, exercising the engine-error path. -/
def decFinalize (B : Nat) (key : Bytes) (s : Bytes) : Except Nat (Bytes × Bytes) :=
  if s.length ≠ B then .error 1
  else
    let p := xorCycle key s
    let pad := p.getLastD 0
    if pad = 0 ∨ B < pad then .error 2
    else if p.drop (B - pad) ≠ List.replicate pad pad then .error 3
    else .ok ([], p.take (B - pad))

/-- The concrete encrypting engine of block size `B`. -/
def xorEncEngine (B : Nat) (key : Bytes) : Engine Bytes :=
  ⟨encUpdate B key, encFinalize B key⟩

/-- The concrete decrypting engine of block size `B`. -/
def xorDecEngine (B : Nat) (key : Bytes) : Engine Bytes :=
  ⟨decUpdate B key, decFinalize B key⟩

/-- Cipher capability for the concrete encrypting engine: requires a key
of exactly `B` bytes, failing with a configuration error otherwise. -/
def xorEncCipher (B : Nat) : Cipher Bytes :=
  ⟨fun key _ => if key.length = B then .ok (xorEncEngine B key, []) else .error 100⟩

/-- Cipher capability for the concrete decrypting engine. -/
def xorDecCipher (B : Nat) : Cipher Bytes :=
  ⟨fun key _ => if key.length = B then .ok (xorDecEngine B key, []) else .error 100⟩

deriving instance DecidableEq for Except

/-! ### Unfolding lemmas for `Adapter.read`

`readAux` is fuel-indexed; any fuel above `Adapter.size` computes the
same result, which yields one conditional rewriting lemma per branch of
the spec's `read` algorithm. -/

theorem readAux_congr :
    ∀ (f g n : Nat) (st : Adapter σ), st.size < f → st.size < g →
      readAux f n st = readAux g n st := by
  intro f
  induction f with
  | zero => intro g n st hf; omega
  | succ f ih =>
    intro g n st hf hg
    match g, hg with
    | g + 1, hg =>
      simp only [readAux]
      by_cases hex : st.exhausted
      · simp [hex]
      · cases hp : st.poisoned with
        | some e => simp [hex, hp]
        | none =>
          by_cases hpe : st.pending = []
          case neg => simp [hex, hp, hpe]
          case pos =>
            by_cases hf' : st.finalized
            · simp [hex, hp, hpe, hf']
            · cases hb : st.src.buf with
              | cons b bs =>
                cases hu : st.eng.update st.s (b :: bs) with
                | error e => simp [hex, hp, hpe, hf', hb, hu]
                | ok p =>
                  simp only [hex, hp, hpe, hf', hb, hu, Bool.false_eq_true, if_false,
                    if_true]
                  apply ih
                  · simp only [Adapter.size, hb] at hf ⊢
                    simp at hf ⊢
                    omega
                  · simp only [Adapter.size, hb] at hg ⊢
                    simp at hg ⊢
                    omega
              | nil =>
                cases he : st.src.inner.events with
                | nil =>
                  cases hfin : st.eng.finalize st.s with
                  | error e => simp [hex, hp, hpe, hf', hb, he, hfin]
                  | ok p =>
                    by_cases hout : p.2 = [] <;>
                      simp [hex, hp, hpe, hf', hb, he, hfin, hout]
                | cons ev r =>
                  cases ev with
                  | chunk cb =>
                    cases hu : st.eng.update st.s cb with
                    | error e => simp [hex, hp, hpe, hf', hb, he, hu]
                    | ok p =>
                      simp only [hex, hp, hpe, hf', hb, he, hu, Bool.false_eq_true,
                        if_false, if_true]
                      apply ih
                      · simp only [Adapter.size, hb, he] at hf ⊢
                        simp at hf ⊢
                        omega
                      · simp only [Adapter.size, hb, he] at hg ⊢
                        simp at hg ⊢
                        omega
                  | ioErr e => simp [hex, hp, hpe, hf', hb, he]

theorem read_eq_of_exhausted (n : Nat) (st : Adapter σ) (hex : st.exhausted = true) :
    Adapter.read n st = (st, .ok []) := by
  simp [Adapter.read, readAux, hex]

theorem read_eq_of_poisoned (n : Nat) (st : Adapter σ) (e : Nat)
    (hex : st.exhausted = false) (hp : st.poisoned = some e) :
    Adapter.read n st = (st, .error (.engErr e)) := by
  simp [Adapter.read, readAux, hex, hp]

theorem read_eq_serve (n : Nat) (st : Adapter σ)
    (hex : st.exhausted = false) (hp : st.poisoned = none) (hpe : st.pending ≠ []) :
    Adapter.read n st =
      ({ st with pending := st.pending.drop n }, .ok (st.pending.take n)) := by
  simp [Adapter.read, readAux, hex, hp, hpe]

theorem read_eq_finalized_drained (n : Nat) (st : Adapter σ)
    (hex : st.exhausted = false) (hp : st.poisoned = none) (hpe : st.pending = [])
    (hf : st.finalized = true) :
    Adapter.read n st = ({ st with exhausted := true }, .ok []) := by
  simp [Adapter.read, readAux, hex, hp, hpe, hf]

theorem read_eq_buf_err (n : Nat) (st : Adapter σ) (b : Nat) (bs : Bytes) (e : Nat)
    (hex : st.exhausted = false) (hp : st.poisoned = none) (hpe : st.pending = [])
    (hf : st.finalized = false) (hb : st.src.buf = b :: bs)
    (hu : st.eng.update st.s (b :: bs) = .error e) :
    Adapter.read n st =
      ({ st with src := { st.src with buf := [] }, poisoned := some e },
        .error (.engErr e)) := by
  simp [Adapter.read, readAux, hex, hp, hpe, hf, hb, hu]

theorem read_eq_buf_ok (n : Nat) (st : Adapter σ) (b : Nat) (bs : Bytes) (s' : σ) (out : Bytes)
    (hex : st.exhausted = false) (hp : st.poisoned = none) (hpe : st.pending = [])
    (hf : st.finalized = false) (hb : st.src.buf = b :: bs)
    (hu : st.eng.update st.s (b :: bs) = .ok (s', out)) :
    Adapter.read n st =
      Adapter.read n
        { st with src := { st.src with buf := [] }, s := s', pending := out } := by
  conv_lhs => rw [Adapter.read]
  simp only [readAux, hex, Bool.false_eq_true, if_false, hp, hpe, if_true, hf, hb, hu]
  rw [Adapter.read]
  apply readAux_congr <;> simp [Adapter.size, hb]

theorem read_eq_fin_err (n : Nat) (st : Adapter σ) (e : Nat)
    (hex : st.exhausted = false) (hp : st.poisoned = none) (hpe : st.pending = [])
    (hf : st.finalized = false) (hb : st.src.buf = []) (he : st.src.inner.events = [])
    (hfin : st.eng.finalize st.s = .error e) :
    Adapter.read n st =
      ({ st with poisoned := some e, finCount := st.finCount + 1 },
        .error (.engErr e)) := by
  simp [Adapter.read, readAux, hex, hp, hpe, hf, hb, he, hfin]

theorem read_eq_fin_nil (n : Nat) (st : Adapter σ) (s' : σ)
    (hex : st.exhausted = false) (hp : st.poisoned = none) (hpe : st.pending = [])
    (hf : st.finalized = false) (hb : st.src.buf = []) (he : st.src.inner.events = [])
    (hfin : st.eng.finalize st.s = .ok (s', [])) :
    Adapter.read n st =
      ({ st with
          s := s'
          finalized := true
          finCount := st.finCount + 1
          exhausted := true }, .ok []) := by
  simp [Adapter.read, readAux, hex, hp, hpe, hf, hb, he, hfin]

theorem read_eq_fin_cons (n : Nat) (st : Adapter σ) (s' : σ) (out : Bytes)
    (hex : st.exhausted = false) (hp : st.poisoned = none) (hpe : st.pending = [])
    (hf : st.finalized = false) (hb : st.src.buf = []) (he : st.src.inner.events = [])
    (hout : out ≠ [])
    (hfin : st.eng.finalize st.s = .ok (s', out)) :
    Adapter.read n st =
      ({ st with
          s := s'
          finalized := true
          finCount := st.finCount + 1
          pending := out.drop n }, .ok (out.take n)) := by
  simp [Adapter.read, readAux, hex, hp, hpe, hf, hb, he, hfin, hout]

theorem read_eq_chunk_err (n : Nat) (st : Adapter σ) (cb : Bytes) (r : List SEvent) (e : Nat)
    (hex : st.exhausted = false) (hp : st.poisoned = none) (hpe : st.pending = [])
    (hf : st.finalized = false) (hb : st.src.buf = [])
    (he : st.src.inner.events = SEvent.chunk cb :: r)
    (hu : st.eng.update st.s cb = .error e) :
    Adapter.read n st =
      ({ st with
          src := { st.src with inner := { st.src.inner with events := r } }
          poisoned := some e }, .error (.engErr e)) := by
  simp [Adapter.read, readAux, hex, hp, hpe, hf, hb, he, hu]

theorem read_eq_chunk_ok (n : Nat) (st : Adapter σ) (cb : Bytes) (r : List SEvent)
    (s' : σ) (out : Bytes)
    (hex : st.exhausted = false) (hp : st.poisoned = none) (hpe : st.pending = [])
    (hf : st.finalized = false) (hb : st.src.buf = [])
    (he : st.src.inner.events = SEvent.chunk cb :: r)
    (hu : st.eng.update st.s cb = .ok (s', out)) :
    Adapter.read n st =
      Adapter.read n
        { st with
            src := { st.src with inner := { st.src.inner with events := r } }
            s := s'
            pending := out } := by
  conv_lhs => rw [Adapter.read]
  simp only [readAux, hex, Bool.false_eq_true, if_false, hp, hpe, if_true, hf, hb, he, hu]
  rw [Adapter.read]
  apply readAux_congr <;> simp [Adapter.size, hb, he]

theorem read_eq_ioErr (n : Nat) (st : Adapter σ) (e : Nat) (r : List SEvent)
    (hex : st.exhausted = false) (hp : st.poisoned = none) (hpe : st.pending = [])
    (hf : st.finalized = false) (hb : st.src.buf = [])
    (he : st.src.inner.events = SEvent.ioErr e :: r) :
    Adapter.read n st =
      ({ st with src := { st.src with inner := { st.src.inner with events := r } } },
        .error (.srcErr e)) := by
  simp [Adapter.read, readAux, hex, hp, hpe, hf, hb, he]

/-! ### The output accounting of one read call -/

theorem remOut_of_exhausted (st : Adapter σ) (h : st.exhausted = true) :
    st.remOut = .ok [] := by
  simp [Adapter.remOut, h]

@[simp] theorem exceptMap_ok (f : Bytes → Bytes) (o : Bytes) :
    Except.map f (Except.ok o : Except Err Bytes) = .ok (f o) := rfl

@[simp] theorem exceptMap_error (f : Bytes → Bytes) (e : Err) :
    Except.map f (Except.error e : Except Err Bytes) = .error e := rfl

/-- Master lemma about one `read` call from a well-formed state: the
invariant and the source's post-stream content are preserved, a
successful read takes a prefix of the owed bytes (an empty one only at
end-of-stream, for positive buffer capacity), and a failing read returns
exactly the error the owed-bytes computation runs into. -/
theorem read_spec :
    ∀ (k n : Nat) (st st' : Adapter σ) (res : Except Err Bytes),
      st.size < k → st.Inv → Adapter.read n st = (st', res) →
      st'.Inv ∧ st'.src.inner.post = st.src.inner.post ∧
      (∀ bs, res = .ok bs →
        st.remOut = st'.remOut.map (bs ++ ·) ∧
        (bs = [] → 1 ≤ n → st'.exhausted = true)) ∧
      (∀ e, res = .error e → st.remOut = .error e) := by
  intro k
  induction k with
  | zero => intro n st st' res h; omega
  | succ k ih =>
    intro n st st' res hsz hInv hread
    obtain ⟨hbuf, hfinev, hfc1, hfc0, hle, hfce, hexh⟩ := hInv
    by_cases hex : st.exhausted = true
    · rw [read_eq_of_exhausted n st hex] at hread
      injection hread with h1 h2
      subst h1; subst h2
      refine ⟨⟨hbuf, hfinev, hfc1, hfc0, hle, hfce, hexh⟩, rfl, ?_, ?_⟩
      · intro bs hbs
        injection hbs with hbs; subst hbs
        simp [remOut_of_exhausted st hex, hex]
      · intro e he; cases he
    · replace hex : st.exhausted = false := by
        cases h : st.exhausted <;> simp_all
      cases hp : st.poisoned with
      | some e0 =>
        rw [read_eq_of_poisoned n st e0 hex hp] at hread
        injection hread with h1 h2
        subst h1; subst h2
        refine ⟨⟨hbuf, hfinev, hfc1, hfc0, hle, hfce, hexh⟩, rfl, ?_, ?_⟩
        · intro bs hbs; cases hbs
        · intro e he
          injection he with he; subst he
          simp [Adapter.remOut, hex, hp]
      | none =>
        by_cases hpe : st.pending = []
        case neg =>
          rw [read_eq_serve n st hex hp hpe] at hread
          injection hread with h1 h2
          subst h1; subst h2
          refine ⟨⟨hbuf, hfinev, hfc1, hfc0, hle, hfce, ?_⟩, rfl, ?_, ?_⟩
          · intro h; exact absurd h (by simp [hex])
          · intro bs hbs
            injection hbs with hbs; subst hbs
            constructor
            · by_cases hf' : st.finalized = true
              · simp only [Adapter.remOut, hex, hp, hf']
                simp [List.take_append_drop]
              · replace hf' : st.finalized = false := by
                  cases h : st.finalized <;> simp_all
                simp only [Adapter.remOut, hex, hp, hf']
                simp only [Bool.false_eq_true, if_false, ite_false]
                cases hv : evOut st.eng st.s st.src.inner.events with
                | error e => simp [Except.map]
                | ok o =>
                  simp only [exceptMap_ok, Except.ok.injEq]
                  rw [← List.append_assoc, List.take_append_drop]
            · intro hnil hn
              exfalso
              rcases List.take_eq_nil_iff.mp hnil with h | h
              · omega
              · exact hpe h
          · intro e he; cases he
        case pos =>
          by_cases hf' : st.finalized = true
          · rw [read_eq_finalized_drained n st hex hp hpe hf'] at hread
            injection hread with h1 h2
            subst h1; subst h2
            refine ⟨⟨hbuf, hfinev, hfc1, hfc0, hle, hfce, ?_⟩, rfl, ?_, ?_⟩
            · intro _; exact ⟨hf', hpe⟩
            · intro bs hbs
              injection hbs with hbs; subst hbs
              constructor
              · simp [Adapter.remOut, hex, hp, hf', hpe]
              · intro _ _; rfl
            · intro e he; cases he
          · replace hf' : st.finalized = false := by
              cases h : st.finalized <;> simp_all
            cases he : st.src.inner.events with
            | nil =>
              cases hfin : st.eng.finalize st.s with
              | error e0 =>
                rw [read_eq_fin_err n st e0 hex hp hpe hf' hbuf he hfin] at hread
                injection hread with h1 h2
                subst h1; subst h2
                have hc0 : st.finCount = 0 := hfc0 hp hf'
                refine ⟨⟨hbuf, by simp [hf'], by simp [hf'], by simp, by simp; omega,
                  by simpa using he, by simp [hex]⟩, rfl, ?_, ?_⟩
                · intro bs hbs; cases hbs
                · intro e hee
                  injection hee with hee; subst hee
                  simp [Adapter.remOut, hex, hp, hf', he, evOut, hfin]
              | ok p =>
                obtain ⟨s', out⟩ := p
                by_cases hout : out = []
                · subst hout
                  rw [read_eq_fin_nil n st s' hex hp hpe hf' hbuf he hfin] at hread
                  injection hread with h1 h2
                  subst h1; subst h2
                  have hc0 : st.finCount = 0 := hfc0 hp hf'
                  refine ⟨⟨hbuf, by simpa using he, by simp; omega, by simp,
                    by simp; omega, by simpa using he, by simpa using hpe⟩, rfl, ?_, ?_⟩
                  · intro bs hbs
                    injection hbs with hbs; subst hbs
                    constructor
                    · simp [Adapter.remOut, hex, hp, hf', he, evOut, hfin, hpe]
                    · intro _ _; rfl
                  · intro e hee; cases hee
                · rw [read_eq_fin_cons n st s' out hex hp hpe hf' hbuf he hout hfin]
                    at hread
                  injection hread with h1 h2
                  subst h1; subst h2
                  have hc0 : st.finCount = 0 := hfc0 hp hf'
                  refine ⟨⟨hbuf, by simpa using he, by simp; omega, by simp,
                    by simp; omega, by simpa using he, by simp [hex]⟩, rfl, ?_, ?_⟩
                  · intro bs hbs
                    injection hbs with hbs; subst hbs
                    constructor
                    · simp [Adapter.remOut, hex, hp, hf', he, evOut, hfin, hpe]
                    · intro hnil hn
                      exfalso
                      rcases List.take_eq_nil_iff.mp hnil with h | h
                      · omega
                      · exact hout h
                  · intro e hee; cases hee
            | cons ev r =>
              cases ev with
              | chunk cb =>
                cases hu : st.eng.update st.s cb with
                | error e0 =>
                  rw [read_eq_chunk_err n st cb r e0 hex hp hpe hf' hbuf he hu] at hread
                  injection hread with h1 h2
                  subst h1; subst h2
                  have hc0 : st.finCount = 0 := hfc0 hp hf'
                  refine ⟨⟨hbuf, by simp [hf'], by simp [hf'], by simp, by simpa using hle,
                    by simp [hc0], by simp [hex]⟩, rfl, ?_, ?_⟩
                  · intro bs hbs; cases hbs
                  · intro e hee
                    injection hee with hee; subst hee
                    simp [Adapter.remOut, hex, hp, hf', he, evOut, hu]
                | ok p =>
                  obtain ⟨s', out⟩ := p
                  rw [read_eq_chunk_ok n st cb r s' out hex hp hpe hf' hbuf he hu] at hread
                  have hc0 : st.finCount = 0 := hfc0 hp hf'
                  have hszmid :
                      (Adapter.size
                        { st with
                            src := { st.src with
                                      inner := { st.src.inner with events := r } }
                            s := s'
                            pending := out }) < k := by
                    simp only [Adapter.size, hbuf, he] at hsz ⊢
                    simp at hsz ⊢
                    omega
                  have hInvMid :
                      Adapter.Inv
                        { st with
                            src := { st.src with
                                      inner := { st.src.inner with events := r } }
                            s := s'
                            pending := out } := by
                    refine ⟨by simpa using hbuf, by simp [hf'], by simp [hf'],
                      by simp [hc0], by simpa using hle, by simp [hc0], by simp [hex]⟩
                  obtain ⟨hI, hpost, hok, herr⟩ := ih n _ st' res hszmid hInvMid hread
                  have hmid : st.remOut =
                      (Adapter.remOut
                        { st with
                            src := { st.src with
                                      inner := { st.src.inner with events := r } }
                            s := s'
                            pending := out }) := by
                    simp only [Adapter.remOut, hex, hp, hf', he, hpe]
                    simp only [evOut, hu]
                    cases hv : evOut st.eng s' r with
                    | error e => simp [Except.map, hv]
                    | ok o => simp [Except.map, hv]
                  refine ⟨hI, by simpa using hpost, ?_, ?_⟩
                  · intro bs hbs
                    obtain ⟨h1, h2⟩ := hok bs hbs
                    exact ⟨hmid.trans h1, h2⟩
                  · intro e hee
                    exact hmid.trans (herr e hee)
              | ioErr e0 =>
                rw [read_eq_ioErr n st e0 r hex hp hpe hf' hbuf he] at hread
                injection hread with h1 h2
                subst h1; subst h2
                have hc0 : st.finCount = 0 := hfc0 hp hf'
                refine ⟨⟨hbuf, by simp [hf'], by simp [hf'], by simp [hc0],
                  by simpa using hle, by simp [hc0], by simp [hex]⟩, rfl, ?_, ?_⟩
                · intro bs hbs; cases hbs
                · intro e hee
                  injection hee with hee; subst hee
                  simp [Adapter.remOut, hex, hp, hf', he, evOut]

/-- Once a read with a positive buffer capacity returns zero bytes, the
adapter is in the `exhausted` state (no invariant needed). -/
theorem read_ok_nil_exhausted :
    ∀ (k n : Nat) (st st' : Adapter σ), st.size < k → 1 ≤ n →
      Adapter.read n st = (st', .ok []) → st'.exhausted = true := by
  intro k
  induction k with
  | zero => intro n st st' h; omega
  | succ k ih =>
    intro n st st' hsz hn hread
    by_cases hex : st.exhausted = true
    · rw [read_eq_of_exhausted n st hex] at hread
      injection hread with h1 h2
      subst h1; exact hex
    · replace hex : st.exhausted = false := by
        cases h : st.exhausted <;> simp_all
      cases hp : st.poisoned with
      | some e0 =>
        rw [read_eq_of_poisoned n st e0 hex hp] at hread
        injection hread with h1 h2
        simp at h2
      | none =>
        by_cases hpe : st.pending = []
        case neg =>
          rw [read_eq_serve n st hex hp hpe] at hread
          injection hread with h1 h2
          injection h2 with h2
          rcases List.take_eq_nil_iff.mp h2 with h | h
          · omega
          · exact absurd h hpe
        case pos =>
          by_cases hf' : st.finalized = true
          · rw [read_eq_finalized_drained n st hex hp hpe hf'] at hread
            injection hread with h1 h2
            subst h1; rfl
          · replace hf' : st.finalized = false := by
              cases h : st.finalized <;> simp_all
            cases hb : st.src.buf with
            | cons b bs =>
              cases hu : st.eng.update st.s (b :: bs) with
              | error e0 =>
                rw [read_eq_buf_err n st b bs e0 hex hp hpe hf' hb hu] at hread
                injection hread with h1 h2
                simp at h2
              | ok p =>
                obtain ⟨s', out⟩ := p
                rw [read_eq_buf_ok n st b bs s' out hex hp hpe hf' hb hu] at hread
                refine ih n _ st' ?_ hn hread
                simp only [Adapter.size, hb] at hsz ⊢
                simp at hsz ⊢
                omega
            | nil =>
              cases he : st.src.inner.events with
              | nil =>
                cases hfin : st.eng.finalize st.s with
                | error e0 =>
                  rw [read_eq_fin_err n st e0 hex hp hpe hf' hb he hfin] at hread
                  injection hread with h1 h2
                  simp at h2
                | ok p =>
                  obtain ⟨s', out⟩ := p
                  by_cases hout : out = []
                  · subst hout
                    rw [read_eq_fin_nil n st s' hex hp hpe hf' hb he hfin] at hread
                    injection hread with h1 h2
                    subst h1; rfl
                  · rw [read_eq_fin_cons n st s' out hex hp hpe hf' hb he hout hfin]
                      at hread
                    injection hread with h1 h2
                    injection h2 with h2
                    rcases List.take_eq_nil_iff.mp h2 with h | h
                    · omega
                    · exact absurd h hout
              | cons ev r =>
                cases ev with
                | chunk cb =>
                  cases hu : st.eng.update st.s cb with
                  | error e0 =>
                    rw [read_eq_chunk_err n st cb r e0 hex hp hpe hf' hb he hu] at hread
                    injection hread with h1 h2
                    simp at h2
                  | ok p =>
                    obtain ⟨s', out⟩ := p
                    rw [read_eq_chunk_ok n st cb r s' out hex hp hpe hf' hb he hu] at hread
                    refine ih n _ st' ?_ hn hread
                    simp only [Adapter.size, hb, he] at hsz ⊢
                    simp at hsz ⊢
                    omega
                | ioErr e0 =>
                  rw [read_eq_ioErr n st e0 r hex hp hpe hf' hb he] at hread
                  injection hread with h1 h2
                  simp at h2

/-- A read that fails with a source I/O error leaves `pending`,
`finalized`, the finalize invocation count and the poison flag untouched
(no invariant needed): a failed pull does not disturb the adapter. -/
theorem read_io_frame :
    ∀ (k n : Nat) (st st' : Adapter σ) (e : Nat), st.size < k →
      Adapter.read n st = (st', .error (.srcErr e)) →
      st'.pending = st.pending ∧ st'.finalized = st.finalized ∧
      st'.finCount = st.finCount ∧ st'.poisoned = st.poisoned := by
  intro k
  induction k with
  | zero => intro n st st' e h; omega
  | succ k ih =>
    intro n st st' e hsz hread
    by_cases hex : st.exhausted = true
    · rw [read_eq_of_exhausted n st hex] at hread
      injection hread with h1 h2
      simp at h2
    · replace hex : st.exhausted = false := by
        cases h : st.exhausted <;> simp_all
      cases hp : st.poisoned with
      | some e0 =>
        rw [read_eq_of_poisoned n st e0 hex hp] at hread
        injection hread with h1 h2
        simp at h2
      | none =>
        by_cases hpe : st.pending = []
        case neg =>
          rw [read_eq_serve n st hex hp hpe] at hread
          injection hread with h1 h2
          simp at h2
        case pos =>
          by_cases hf' : st.finalized = true
          · rw [read_eq_finalized_drained n st hex hp hpe hf'] at hread
            injection hread with h1 h2
            simp at h2
          · replace hf' : st.finalized = false := by
              cases h : st.finalized <;> simp_all
            cases hb : st.src.buf with
            | cons b bs =>
              cases hu : st.eng.update st.s (b :: bs) with
              | error e0 =>
                rw [read_eq_buf_err n st b bs e0 hex hp hpe hf' hb hu] at hread
                injection hread with h1 h2
                simp at h2
              | ok p =>
                obtain ⟨s', out⟩ := p
                rw [read_eq_buf_ok n st b bs s' out hex hp hpe hf' hb hu] at hread
                by_cases hout : out = []
                · subst hout
                  have hmid := ih n
                    { st with src := { st.src with buf := [] }, s := s', pending := [] }
                    st' e
                    (by simp only [Adapter.size, hb] at hsz ⊢
                        simp at hsz ⊢
                        omega) hread
                  simpa [hpe, hp] using hmid
                · rw [read_eq_serve n
                    { st with src := { st.src with buf := [] }, s := s', pending := out }
                    hex hp hout] at hread
                  injection hread with h1 h2
                  simp at h2
            | nil =>
              cases he : st.src.inner.events with
              | nil =>
                cases hfin : st.eng.finalize st.s with
                | error e0 =>
                  rw [read_eq_fin_err n st e0 hex hp hpe hf' hb he hfin] at hread
                  injection hread with h1 h2
                  simp at h2
                | ok p =>
                  obtain ⟨s', out⟩ := p
                  by_cases hout : out = []
                  · subst hout
                    rw [read_eq_fin_nil n st s' hex hp hpe hf' hb he hfin] at hread
                    injection hread with h1 h2
                    simp at h2
                  · rw [read_eq_fin_cons n st s' out hex hp hpe hf' hb he hout hfin]
                      at hread
                    injection hread with h1 h2
                    simp at h2
              | cons ev r =>
                cases ev with
                | chunk cb =>
                  cases hu : st.eng.update st.s cb with
                  | error e0 =>
                    rw [read_eq_chunk_err n st cb r e0 hex hp hpe hf' hb he hu] at hread
                    injection hread with h1 h2
                    simp at h2
                  | ok p =>
                    obtain ⟨s', out⟩ := p
                    rw [read_eq_chunk_ok n st cb r s' out hex hp hpe hf' hb he hu] at hread
                    by_cases hout : out = []
                    · subst hout
                      have hmid := ih n
                        { st with
                            src := { st.src with
                                      inner := { st.src.inner with events := r } }
                            s := s'
                            pending := [] }
                        st' e
                        (by simp only [Adapter.size, hb, he] at hsz ⊢
                            simp at hsz ⊢
                            omega) hread
                      simpa [hpe, hp] using hmid
                    · rw [read_eq_serve n
                        { st with
                            src := { st.src with
                                      inner := { st.src.inner with events := r } }
                            s := s'
                            pending := out }
                        hex hp hout] at hread
                      injection hread with h1 h2
                      simp at h2
                | ioErr e0 =>
                  rw [read_eq_ioErr n st e0 r hex hp hpe hf' hb he] at hread
                  injection hread with h1 h2
                  subst h1
                  exact ⟨rfl, rfl, rfl, hp⟩

/-! ### Draining the adapter to end-of-stream -/

/-- Soundness of a completed drain: when repeated reads (with positive
buffer capacities) reach end-of-stream, the concatenation of everything
delivered is exactly the bytes the starting state owed, the invariant is
preserved, and the source's post-stream content is untouched. -/
theorem drain_sound :
    ∀ (fuel : Nat) (sizes : Nat → Nat) (st st' : Adapter σ) (X : Bytes),
      st.Inv → (∀ i, 1 ≤ sizes i) →
      readAll sizes st fuel = some (.ok (st', X)) →
      st.remOut = .ok X ∧ st'.Inv ∧ st'.exhausted = true ∧
      st'.src.inner.post = st.src.inner.post := by
  intro fuel
  induction fuel with
  | zero =>
    intro sizes st st' X _ _ h
    simp [readAll] at h
  | succ fuel ih =>
    intro sizes st st' X hInv hs h
    rcases hread : Adapter.read (sizes 0) st with ⟨st₁, res⟩
    obtain ⟨hI₁, hpost₁, hok, herr⟩ :=
      read_spec (st.size + 1) (sizes 0) st st₁ res (by omega) hInv hread
    cases res with
    | error e =>
      simp only [readAll, hread] at h
      simp at h
    | ok bs =>
      cases bs with
      | nil =>
        simp only [readAll, hread] at h
        simp only [Option.some.injEq, Except.ok.injEq, Prod.mk.injEq] at h
        obtain ⟨h1, h2⟩ := h
        subst h1; subst h2
        obtain ⟨hrem, hexh⟩ := hok [] rfl
        have hx : st₁.exhausted = true := hexh rfl (hs 0)
        refine ⟨?_, hI₁, hx, hpost₁⟩
        rw [hrem, remOut_of_exhausted st₁ hx]
        rfl
      | cons b t =>
        simp only [readAll, hread] at h
        cases hr : readAll (fun i => sizes (i + 1)) st₁ fuel with
        | none => rw [hr] at h; simp at h
        | some r =>
          rw [hr] at h
          cases r with
          | error e => simp [Except.map] at h
          | ok q =>
            obtain ⟨st₂, rest⟩ := q
            simp only [Except.map, Option.map_some, Option.map_some',
              Option.some.injEq, Except.ok.injEq, Prod.mk.injEq] at h
            obtain ⟨h1, h2⟩ := h
            subst h1; subst h2
            obtain ⟨hrem₂, hI₂, hx₂, hpost₂⟩ :=
              ih (fun i => sizes (i + 1)) st₁ st₂ rest hI₁ (fun i => hs (i + 1)) hr
            obtain ⟨hrem, _⟩ := hok (b :: t) rfl
            refine ⟨?_, hI₂, hx₂, hpost₂.trans hpost₁⟩
            rw [hrem, hrem₂]
            rfl

/-- Completeness of draining: a well-formed state that owes the byte
string `out` can be drained with any positive per-call buffer
capacities, delivering exactly `out`. -/
theorem drain_cover :
    ∀ (L : Nat) (out : Bytes) (sizes : Nat → Nat) (st : Adapter σ),
      out.length ≤ L → st.Inv → (∀ i, 1 ≤ sizes i) → st.remOut = .ok out →
      ∃ fuel st', readAll sizes st fuel = some (.ok (st', out)) := by
  intro L
  induction L with
  | zero =>
    intro out sizes st hlen hInv hs hrem
    have hout : out = [] := by
      cases out with
      | nil => rfl
      | cons x xs => simp at hlen
    subst hout
    rcases hread : Adapter.read (sizes 0) st with ⟨st₁, res⟩
    obtain ⟨hI₁, hpost₁, hok, herr⟩ :=
      read_spec (st.size + 1) (sizes 0) st st₁ res (by omega) hInv hread
    cases res with
    | error e => rw [herr e rfl] at hrem; cases hrem
    | ok bs =>
      obtain ⟨hrel, hexh⟩ := hok bs rfl
      rw [hrem] at hrel
      cases hv : st₁.remOut with
      | error e => rw [hv] at hrel; simp at hrel
      | ok o =>
        rw [hv] at hrel
        simp only [exceptMap_ok, Except.ok.injEq] at hrel
        have hbs : bs = [] := by
          cases bs with
          | nil => rfl
          | cons x xs => simp at hrel
        subst hbs
        refine ⟨1, st₁, ?_⟩
        simp [readAll, hread]
  | succ L ihL =>
    intro out sizes st hlen hInv hs hrem
    rcases hread : Adapter.read (sizes 0) st with ⟨st₁, res⟩
    obtain ⟨hI₁, hpost₁, hok, herr⟩ :=
      read_spec (st.size + 1) (sizes 0) st st₁ res (by omega) hInv hread
    cases res with
    | error e => rw [herr e rfl] at hrem; cases hrem
    | ok bs =>
      obtain ⟨hrel, hexh⟩ := hok bs rfl
      rw [hrem] at hrel
      cases hv : st₁.remOut with
      | error e => rw [hv] at hrel; simp at hrel
      | ok o =>
        rw [hv] at hrel
        simp only [exceptMap_ok, Except.ok.injEq] at hrel
        cases bs with
        | nil =>
          have hx : st₁.exhausted = true := hexh rfl (hs 0)
          have ho : o = [] := by
            have h0 := remOut_of_exhausted st₁ hx
            rw [hv] at h0
            simpa using h0
          subst ho
          have ho2 : out = [] := by simpa using hrel
          subst ho2
          refine ⟨1, st₁, ?_⟩
          simp [readAll, hread]
        | cons b t =>
          subst hrel
          have holen : o.length ≤ L := by
            simp only [List.length_cons, List.length_append] at hlen
            omega
          obtain ⟨f, st₂, hrall⟩ :=
            ihL o (fun i => sizes (i + 1)) st₁ holen hI₁ (fun i => hs (i + 1)) hv
          refine ⟨f + 1, st₂, ?_⟩
          simp [readAll, hread, hrall, Except.map]

/-! ### Sequences of reads and freshly constructed adapters -/

/-- An exhausted adapter never changes again: every further read, with
any buffer capacity, returns zero bytes and leaves the state intact. -/
theorem readMany_exhausted (ms : List Nat) (st : Adapter σ) (hx : st.exhausted = true) :
    readMany ms st = (st, ms.map fun _ => Except.ok []) := by
  induction ms with
  | nil => rfl
  | cons m ms ih => simp [readMany, read_eq_of_exhausted m st hx, ih]

/-- The adapter invariant is preserved by any sequence of reads. -/
theorem readMany_inv (ms : List Nat) :
    ∀ (st : Adapter σ), st.Inv → ((readMany ms st).1).Inv := by
  induction ms with
  | nil => intro st hInv; simpa [readMany] using hInv
  | cons m ms ih =>
    intro st hInv
    rcases hread : Adapter.read m st with ⟨st₁, res⟩
    have hI₁ := (read_spec (st.size + 1) m st st₁ res (by omega) hInv hread).1
    simp only [readMany, hread]
    exact ih st₁ hI₁

/-- Unfolding `read::Encryptor::new`: on successful engine
initialization the wrapper holds a fresh adapter over the
`BufReader`-wrapped source. -/
theorem enc_new_fields (r : Source) (c : Cipher σ) (key iv : Bytes) (w : Encryptor σ)
    (hw : Encryptor.new r c key iv = .ok w) :
    w.reader.src = ⟨[], r⟩ ∧ w.reader.pending = [] ∧ w.reader.finalized = false ∧
    w.reader.exhausted = false ∧ w.reader.poisoned = none ∧ w.reader.finCount = 0 := by
  cases hi : c.init key iv with
  | error e =>
    simp [Encryptor.new, Adapter.new, hi, Except.map] at hw
  | ok p =>
    simp only [Encryptor.new, Adapter.new, BufReader.new, hi, Except.map,
      Except.ok.injEq] at hw
    subst hw
    exact ⟨rfl, rfl, rfl, rfl, rfl, rfl⟩

/-- Unfolding `read::Decryptor::new`, as for the encryptor. -/
theorem dec_new_fields (r : Source) (c : Cipher σ) (key iv : Bytes) (w : Decryptor σ)
    (hw : Decryptor.new r c key iv = .ok w) :
    w.reader.src = ⟨[], r⟩ ∧ w.reader.pending = [] ∧ w.reader.finalized = false ∧
    w.reader.exhausted = false ∧ w.reader.poisoned = none ∧ w.reader.finCount = 0 := by
  cases hi : c.init key iv with
  | error e =>
    simp [Decryptor.new, Adapter.new, hi, Except.map] at hw
  | ok p =>
    simp only [Decryptor.new, Adapter.new, BufReader.new, hi, Except.map,
      Except.ok.injEq] at hw
    subst hw
    exact ⟨rfl, rfl, rfl, rfl, rfl, rfl⟩

/-- A state with empty pending output, not yet finalized and with a
zero invocation count satisfies the adapter invariant. -/
theorem inv_of_fresh_fields (st : Adapter σ) (hbuf : st.src.buf = [])
    (_hpe : st.pending = []) (hf : st.finalized = false) (hex : st.exhausted = false)
    (hc : st.finCount = 0) : st.Inv := by
  refine ⟨hbuf, ?_, ?_, ?_, ?_, ?_, ?_⟩ <;> simp [hf, hc, hex]

/-- Before the first finalize, the bytes owed are exactly the engine
transform of the unread source events. -/
theorem remOut_of_fields (st : Adapter σ) (hex : st.exhausted = false)
    (hp : st.poisoned = none) (hf : st.finalized = false) (hpe : st.pending = []) :
    st.remOut = evOut st.eng st.s st.src.inner.events := by
  simp only [Adapter.remOut, hex, hp, hf, hpe]
  cases evOut st.eng st.s st.src.inner.events <;> simp

/-- A source is determined by its two components. -/
theorem source_eq_mk (s : Source) (evs : List SEvent) (pst : Bytes)
    (h1 : s.events = evs) (h2 : s.post = pst) : s = ⟨evs, pst⟩ := by
  cases s
  simp_all

/-! ### The claims -/

/-- Claim C1: for every byte sequence P (given as the chunks `cs` of the
plaintext source) and every valid (algorithm, key, IV) triple - that is,
every engine pair whose update/finalize capability encrypts P to `ct`
and decrypts `ct` back to P, as the spec's out-of-scope cipher engine
contract promises - reading an Encryptor over P to end-of-stream yields
exactly `ct`, and reading a Decryptor over that ciphertext to
end-of-stream yields exactly P, for any positive read-buffer
capacities. -/
theorem c1_round_trip {σE σD : Type} (cE : Cipher σE) (cD : Cipher σD)
    (key iv : Bytes) (cs : List Bytes) (ct : Bytes) (sizes₁ sizes₂ : Nat → Nat)
    (wE : Encryptor σE) (wD : Decryptor σD)
    (hs₁ : ∀ i, 1 ≤ sizes₁ i) (hs₂ : ∀ i, 1 ≤ sizes₂ i)
    (hwE : Encryptor.new (mkSource cs) cE key iv = .ok wE)
    (henc : evOut wE.reader.eng wE.reader.s (List.map SEvent.chunk cs) = .ok ct)
    (hwD : Decryptor.new (mkSource (oneChunk ct)) cD key iv = .ok wD)
    (hdec : evOut wD.reader.eng wD.reader.s (List.map SEvent.chunk (oneChunk ct))
      = .ok cs.flatten) :
    (∃ f₁ stE, readAll sizes₁ wE.reader f₁ = some (.ok (stE, ct))) ∧
    (∃ f₂ stD, readAll sizes₂ wD.reader f₂ = some (.ok (stD, cs.flatten))) := by
  obtain ⟨hsrcE, hpeE, hfE, hexE, hpE, hcE⟩ := enc_new_fields _ _ _ _ wE hwE
  obtain ⟨hsrcD, hpeD, hfD, hexD, hpD, hcD⟩ := dec_new_fields _ _ _ _ wD hwD
  have hbufE : wE.reader.src.buf = [] := by rw [hsrcE]
  have hbufD : wD.reader.src.buf = [] := by rw [hsrcD]
  have hInvE := inv_of_fresh_fields _ hbufE hpeE hfE hexE hcE
  have hInvD := inv_of_fresh_fields _ hbufD hpeD hfD hexD hcD
  have hremE : wE.reader.remOut = .ok ct := by
    rw [remOut_of_fields _ hexE hpE hfE hpeE]
    have hev : wE.reader.src.inner.events = List.map SEvent.chunk cs := by
      rw [hsrcE]; rfl
    rw [hev]; exact henc
  have hremD : wD.reader.remOut = .ok cs.flatten := by
    rw [remOut_of_fields _ hexD hpD hfD hpeD]
    have hev : wD.reader.src.inner.events = List.map SEvent.chunk (oneChunk ct) := by
      rw [hsrcD]; rfl
    rw [hev]; exact hdec
  obtain ⟨f₁, stE, h₁⟩ :=
    drain_cover ct.length ct sizes₁ wE.reader (le_refl _) hInvE hs₁ hremE
  obtain ⟨f₂, stD, h₂⟩ :=
    drain_cover cs.flatten.length cs.flatten sizes₂ wD.reader (le_refl _) hInvD hs₂ hremD
  exact ⟨⟨f₁, stE, h₁⟩, ⟨f₂, stD, h₂⟩⟩

/-- Claim C2: from any well-formed adapter state, for any two choices of
per-call read-buffer capacities (all positive), if repeatedly calling
read until a read returns zero bytes succeeds under both choices, the
two concatenations of all bytes produced are the same byte sequence:
the stream is independent of the caller's buffer sizes. -/
theorem c2_streaming_equivalence (st : Adapter σ) (sizes₁ sizes₂ : Nat → Nat)
    (f₁ f₂ : Nat) (X Y : Bytes) (hInv : st.Inv)
    (hs₁ : ∀ i, 1 ≤ sizes₁ i) (hs₂ : ∀ i, 1 ≤ sizes₂ i)
    (h₁ : ∃ st₁, readAll sizes₁ st f₁ = some (.ok (st₁, X)))
    (h₂ : ∃ st₂, readAll sizes₂ st f₂ = some (.ok (st₂, Y))) : X = Y := by
  obtain ⟨st₁, h₁⟩ := h₁
  obtain ⟨st₂, h₂⟩ := h₂
  have e₁ := (drain_sound f₁ sizes₁ st st₁ X hInv hs₁ h₁).1
  have e₂ := (drain_sound f₂ sizes₂ st st₂ Y hInv hs₂ h₂).1
  rw [e₁] at e₂
  simpa using e₂

/-- Claim C3: after fully draining a `read::Encryptor` (respectively
`read::Decryptor`), `finish()` returns the original underlying source:
the stream part has been consumed and the post-stream content is
byte-for-byte what it would have been had the source never been
wrapped. -/
theorem c3_finish_returns_source {σE σD : Type} (r r' : Source)
    (cE : Cipher σE) (cD : Cipher σD) (key iv : Bytes)
    (wE : Encryptor σE) (wD : Decryptor σD) (sizes sizes' : Nat → Nat)
    (f f' : Nat) (stE : Adapter σE) (stD : Adapter σD) (X Y : Bytes)
    (hwE : Encryptor.new r cE key iv = .ok wE)
    (hs : ∀ i, 1 ≤ sizes i)
    (hdrE : readAll sizes wE.reader f = some (.ok (stE, X)))
    (hwD : Decryptor.new r' cD key iv = .ok wD)
    (hs' : ∀ i, 1 ≤ sizes' i)
    (hdrD : readAll sizes' wD.reader f' = some (.ok (stD, Y))) :
    Encryptor.finish { reader := stE } = { events := [], post := r.post } ∧
    Decryptor.finish { reader := stD } = { events := [], post := r'.post } := by
  obtain ⟨hsrcE, hpeE, hfE, hexE, hpE, hcE⟩ := enc_new_fields _ _ _ _ wE hwE
  obtain ⟨hsrcD, hpeD, hfD, hexD, hpD, hcD⟩ := dec_new_fields _ _ _ _ wD hwD
  have hbufE : wE.reader.src.buf = [] := by rw [hsrcE]
  have hbufD : wD.reader.src.buf = [] := by rw [hsrcD]
  have hInvE := inv_of_fresh_fields _ hbufE hpeE hfE hexE hcE
  have hInvD := inv_of_fresh_fields _ hbufD hpeD hfD hexD hcD
  obtain ⟨_, hIE, hxE, hpostE⟩ := drain_sound f sizes wE.reader stE X hInvE hs hdrE
  obtain ⟨_, hID, hxD, hpostD⟩ := drain_sound f' sizes' wD.reader stD Y hInvD hs' hdrD
  constructor
  · obtain ⟨_, hfinev, _, _, _, _, hexh⟩ := hIE
    have hev : stE.src.inner.events = [] := hfinev (hxE ▸ (hexh hxE).1)
    have hpo : stE.src.inner.post = r.post := by
      rw [hpostE, hsrcE]
    exact source_eq_mk _ _ _ hev hpo
  · obtain ⟨_, hfinev, _, _, _, _, hexh⟩ := hID
    have hev : stD.src.inner.events = [] := hfinev (hxD ▸ (hexh hxD).1)
    have hpo : stD.src.inner.post = r'.post := by
      rw [hpostD, hsrcD]
    exact source_eq_mk _ _ _ hev hpo

/-- Claim C4: once a read call with a positive buffer capacity returns
zero bytes (end-of-stream), every subsequent read call on that same
adapter - with any buffer capacities - also returns zero bytes, never
returns an error, never produces additional bytes, and leaves the
adapter state unchanged. -/
theorem c4_eos_idempotent (n : Nat) (st st' : Adapter σ) (hn : 1 ≤ n)
    (h : Adapter.read n st = (st', .ok [])) (ms : List Nat) :
    readMany ms st' = (st', ms.map fun _ => Except.ok []) := by
  have hx : st'.exhausted = true :=
    read_ok_nil_exhausted (st.size + 1) n st st' (by omega) hn h
  exact readMany_exhausted ms st' hx

/-- Claim C5: when pending output holds more bytes than the caller's
buffer can receive, the read delivers exactly the buffer-filling prefix
of `pending_output`, the undelivered remainder is preserved exactly, and
a subsequent read delivers that remainder byte-for-byte in order: no
byte is delivered twice and none is dropped. -/
theorem c5_partial_read_no_loss (n : Nat) (st : Adapter σ) (hex : st.exhausted = false)
    (hp : st.poisoned = none) (hlt : n < st.pending.length) :
    Adapter.read n st
      = ({ st with pending := st.pending.drop n }, .ok (st.pending.take n)) ∧
    st.pending.take n ++ st.pending.drop n = st.pending ∧
    (Adapter.read st.pending.length { st with pending := st.pending.drop n }).2
      = .ok (st.pending.drop n) := by
  have hpe : st.pending ≠ [] := by
    intro h
    rw [h] at hlt
    simp at hlt
  refine ⟨read_eq_serve n st hex hp hpe, List.take_append_drop n st.pending, ?_⟩
  have hpe2 : ({ st with pending := st.pending.drop n } : Adapter σ).pending ≠ [] := by
    intro h
    have hlen := congrArg List.length h
    simp at hlen
    omega
  rw [read_eq_serve st.pending.length { st with pending := st.pending.drop n }
    hex hp hpe2]
  simp only [Except.ok.injEq]
  apply List.take_of_length_le
  simp

/-- Claim C6: over any sequence of read calls on a well-formed adapter,
`engine.finalize` is invoked at most once (tracked by the ghost
invocation counter), and when it has been invoked the source's event
stream had already been exhausted, that is, the pull that triggered it
had returned a zero-byte read; an `update` call yielding zero output
bytes never triggers it, since the adapter re-pulls instead. -/
theorem c6_finalize_at_most_once (st : Adapter σ) (hInv : st.Inv) (ms : List Nat) :
    (readMany ms st).1.finCount ≤ 1 ∧
    (1 ≤ (readMany ms st).1.finCount → (readMany ms st).1.src.inner.events = []) := by
  obtain ⟨_, _, _, _, h5, h6, _⟩ := readMany_inv ms st hInv
  exact ⟨h5, h6⟩

/-- Claim C7: when a pull from the underlying source fails with an I/O
error, the read call returns that error verbatim (as the hypothesis
exhibits) and the adapter's internal state is untouched: `pending`,
`finalized`, the ghost finalize-invocation count and the poison flag are
all unchanged, so a retry against a recovered source observes a fresh
attempt.  Applied to a freshly constructed adapter whose source errors
immediately, this gives the error on the very first read with `pending`
still empty and finalize never attempted. -/
theorem c7_io_error_preserves_state (n : Nat) (st st' : Adapter σ) (e : Nat)
    (h : Adapter.read n st = (st', .error (.srcErr e))) :
    st'.pending = st.pending ∧ st'.finalized = st.finalized ∧
    st'.finCount = st.finCount ∧ st'.poisoned = st.poisoned :=
  read_io_frame (st.size + 1) n st st' e (by omega) h

/-- Claim C8: construction of the public encryptor and decryptor reads
zero bytes from the source: on a valid (algorithm, key, IV) triple both
constructions succeed, the wrapped source inside the returned adapter is
exactly the given source with an empty read-ahead buffer, and no output
is pending, nothing is finalized, and finalize was never invoked - the
first pull can only happen on the first read call. -/
theorem c8_construction_lazy {σE σD : Type} (r : Source) (cE : Cipher σE)
    (cD : Cipher σD) (key iv : Bytes) (E : Engine σE) (sE : σE) (D : Engine σD)
    (sD : σD) (hiE : cE.init key iv = .ok (E, sE)) (hiD : cD.init key iv = .ok (D, sD)) :
    ∃ wE wD, Encryptor.new r cE key iv = .ok wE ∧ Decryptor.new r cD key iv = .ok wD ∧
      wE.reader.src.inner = r ∧ wE.reader.src.buf = [] ∧ wE.reader.pending = [] ∧
      wE.reader.finalized = false ∧ wE.reader.finCount = 0 ∧
      wD.reader.src.inner = r ∧ wD.reader.src.buf = [] ∧ wD.reader.pending = [] ∧
      wD.reader.finalized = false ∧ wD.reader.finCount = 0 := by
  refine ⟨⟨⟨⟨[], r⟩, E, sE, [], false, false, none, 0⟩⟩,
    ⟨⟨⟨[], r⟩, D, sD, [], false, false, none, 0⟩⟩, ?_, ?_,
    rfl, rfl, rfl, rfl, rfl, rfl, rfl, rfl, rfl, rfl⟩
  · simp [Encryptor.new, Adapter.new, BufReader.new, hiE, Except.map]
  · simp [Decryptor.new, Adapter.new, BufReader.new, hiD, Except.map]

/-- Claim C9: encrypting the empty input produces exactly the engine's
finalize-only output `fo` (for the padded witness engine this is one
whole padding block), and decrypting that output yields the empty
sequence. -/
theorem c9_empty_input {σE σD : Type} (cE : Cipher σE) (cD : Cipher σD)
    (key iv : Bytes) (fo : Bytes) (sE' : σE) (sizes₁ sizes₂ : Nat → Nat)
    (wE : Encryptor σE) (wD : Decryptor σD)
    (hs₁ : ∀ i, 1 ≤ sizes₁ i) (hs₂ : ∀ i, 1 ≤ sizes₂ i)
    (hwE : Encryptor.new (mkSource []) cE key iv = .ok wE)
    (hfin : wE.reader.eng.finalize wE.reader.s = .ok (sE', fo))
    (hwD : Decryptor.new (mkSource (oneChunk fo)) cD key iv = .ok wD)
    (hdec : evOut wD.reader.eng wD.reader.s (List.map SEvent.chunk (oneChunk fo))
      = .ok []) :
    (∃ f₁ stE, readAll sizes₁ wE.reader f₁ = some (.ok (stE, fo))) ∧
    (∃ f₂ stD, readAll sizes₂ wD.reader f₂ = some (.ok (stD, []))) := by
  have henc : evOut wE.reader.eng wE.reader.s (List.map SEvent.chunk []) = .ok fo := by
    simp [evOut, hfin]
  have h := c1_round_trip cE cD key iv [] fo sizes₁ sizes₂ wE wD hs₁ hs₂ hwE henc hwD
    (by simpa using hdec)
  simpa using h

/-- Specification-side behavior of `Read for read::Encryptor`
(src/read.rs lines 35-41): the result of exactly one read call on the
inner buffered adapter, with the identical byte outcome. -/
def encReadSpec (n : Nat) (w : Encryptor σ) : Encryptor σ × Except Err Bytes :=
  ({ reader := (Adapter.read n w.reader).1 }, (Adapter.read n w.reader).2)

/-- Specification-side behavior of `Read for read::Decryptor`
(src/read.rs lines 64-70). -/
def decReadSpec (n : Nat) (w : Decryptor σ) : Decryptor σ × Except Err Bytes :=
  ({ reader := (Adapter.read n w.reader).1 }, (Adapter.read n w.reader).2)

/-- Claim C10: a read call on the public `read::Encryptor` (respectively
`read::Decryptor`) returns exactly the result of a single read call on
the inner buffered adapter - the same bytes or the same error, and the
same successor state - adding no transformation, retry, or buffering of
its own. -/
theorem c10_wrapper_passthrough {σE σD : Type} (n m : Nat) (wE : Encryptor σE)
    (wD : Decryptor σD) :
    Encryptor.read n wE = encReadSpec n wE ∧ Decryptor.read m wD = decReadSpec m wD :=
  ⟨rfl, rfl⟩

/-! ### Concrete witnesses

All witnesses use the concrete block-cipher pair of block size 4 with
key `[1,2,3,4]`; the plaintext is the five bytes of `"hello"`, whose
ciphertext under that engine is `[105,103,111,104,110,1,0,7]` (two
blocks: five data bytes plus three bytes of padding). -/

/-- Fresh public encryptor over the plaintext chunks `"he"`, `"llo"`. -/
def wEc : Encryptor Bytes :=
  { reader :=
    { src := { buf := [], inner := mkSource [[104, 101], [108, 108, 111]] }
      eng := xorEncEngine 4 [1, 2, 3, 4]
      s := []
      pending := []
      finalized := false
      exhausted := false
      poisoned := none
      finCount := 0 } }

/-- Fresh public decryptor over the one-chunk ciphertext. -/
def wDc : Decryptor Bytes :=
  { reader :=
    { src := { buf := [], inner := mkSource (oneChunk [105, 103, 111, 104, 110, 1, 0, 7]) }
      eng := xorDecEngine 4 [1, 2, 3, 4]
      s := []
      pending := []
      finalized := false
      exhausted := false
      poisoned := none
      finCount := 0 } }

/-- Claim C1 witness: encrypting `"hello"` read in chunks of 2 yields the
two-block ciphertext, and decrypting it read in chunks of 7 restores
`"hello"` exactly. -/
theorem c1_round_trip_witness :
    (∃ f₁ stE, readAll (fun _ => 2) wEc.reader f₁
      = some (.ok (stE, [105, 103, 111, 104, 110, 1, 0, 7]))) ∧
    (∃ f₂ stD, readAll (fun _ => 7) wDc.reader f₂
      = some (.ok (stD, [104, 101, 108, 108, 111]))) :=
  c1_round_trip (xorEncCipher 4) (xorDecCipher 4) [1, 2, 3, 4] [9, 9, 9, 9]
    [[104, 101], [108, 108, 111]] [105, 103, 111, 104, 110, 1, 0, 7]
    (fun _ => 2) (fun _ => 7) wEc wDc
    (fun _ => (by decide : (1 : Nat) ≤ 2)) (fun _ => (by decide : (1 : Nat) ≤ 7))
    rfl (by decide) rfl (by decide)

/-- Claim C2 witness: draining the concrete encryptor with 1-byte reads
and with huge 100-byte reads produces the same ciphertext stream. -/
theorem c2_streaming_equivalence_witness :
    ([105, 103, 111, 104, 110, 1, 0, 7] : Bytes)
      = [105, 103, 111, 104, 110, 1, 0, 7] :=
  c2_streaming_equivalence wEc.reader (fun _ => 1) (fun _ => 100) 20 20
    [105, 103, 111, 104, 110, 1, 0, 7] [105, 103, 111, 104, 110, 1, 0, 7]
    (inv_of_fresh_fields _ rfl rfl rfl rfl rfl)
    (fun _ => (by decide : (1 : Nat) ≤ 1)) (fun _ => (by decide : (1 : Nat) ≤ 100))
    ⟨_, rfl⟩ ⟨_, rfl⟩

/-- Fresh encryptor over `"hello"` with post-stream content `[42, 43]`. -/
def wE3 : Encryptor Bytes :=
  { reader :=
    { src := { buf := [], inner := ⟨[SEvent.chunk [104, 101, 108, 108, 111]], [42, 43]⟩ }
      eng := xorEncEngine 4 [1, 2, 3, 4]
      s := []
      pending := []
      finalized := false
      exhausted := false
      poisoned := none
      finCount := 0 } }

/-- Fresh decryptor over the ciphertext with post-stream content `[77]`. -/
def wD3 : Decryptor Bytes :=
  { reader :=
    { src := { buf := []
               inner := ⟨[SEvent.chunk [105, 103, 111, 104, 110, 1, 0, 7]], [77]⟩ }
      eng := xorDecEngine 4 [1, 2, 3, 4]
      s := []
      pending := []
      finalized := false
      exhausted := false
      poisoned := none
      finCount := 0 } }

/-- Claim C3 witness: after fully draining the concrete encryptor and
decryptor, `finish()` returns the source with the stream consumed and
the post-stream bytes intact. -/
theorem c3_finish_returns_source_witness :
    ∃ stE X stD Y,
      readAll (fun _ => 3) wE3.reader 10 = some (.ok (stE, X)) ∧
      readAll (fun _ => 3) wD3.reader 10 = some (.ok (stD, Y)) ∧
      Encryptor.finish { reader := stE } = { events := [], post := [42, 43] } ∧
      Decryptor.finish { reader := stD } = { events := [], post := [77] } := by
  refine ⟨_, _, _, _, rfl, rfl, ?_, ?_⟩
  · exact (c3_finish_returns_source
      ⟨[SEvent.chunk [104, 101, 108, 108, 111]], [42, 43]⟩
      ⟨[SEvent.chunk [105, 103, 111, 104, 110, 1, 0, 7]], [77]⟩
      (xorEncCipher 4) (xorDecCipher 4) [1, 2, 3, 4] [9, 9, 9, 9] wE3 wD3
      (fun _ => 3) (fun _ => 3) 10 10 _ _ _ _ rfl
      (fun _ => (by decide : (1 : Nat) ≤ 3)) rfl rfl
      (fun _ => (by decide : (1 : Nat) ≤ 3)) rfl).1
  · exact (c3_finish_returns_source
      ⟨[SEvent.chunk [104, 101, 108, 108, 111]], [42, 43]⟩
      ⟨[SEvent.chunk [105, 103, 111, 104, 110, 1, 0, 7]], [77]⟩
      (xorEncCipher 4) (xorDecCipher 4) [1, 2, 3, 4] [9, 9, 9, 9] wE3 wD3
      (fun _ => 3) (fun _ => 3) 10 10 _ _ _ _ rfl
      (fun _ => (by decide : (1 : Nat) ≤ 3)) rfl rfl
      (fun _ => (by decide : (1 : Nat) ≤ 3)) rfl).2

/-- A drained adapter: everything delivered, finalize already done. -/
def st4 : Adapter Bytes :=
  { src := { buf := [], inner := ⟨[], []⟩ }
    eng := xorEncEngine 4 [1, 2, 3, 4]
    s := []
    pending := []
    finalized := true
    exhausted := false
    poisoned := none
    finCount := 1 }

/-- The same adapter after it has reported end-of-stream. -/
def st4x : Adapter Bytes :=
  { src := { buf := [], inner := ⟨[], []⟩ }
    eng := xorEncEngine 4 [1, 2, 3, 4]
    s := []
    pending := []
    finalized := true
    exhausted := true
    poisoned := none
    finCount := 1 }

/-- Claim C4 witness: the read on `st4` returns zero bytes, and the
three subsequent reads (with capacities 1, 2, 3) all return zero bytes
with the state unchanged. -/
theorem c4_eos_idempotent_witness :
    readMany [1, 2, 3] st4x = (st4x, [Except.ok [], Except.ok [], Except.ok []]) :=
  c4_eos_idempotent 5 st4 st4x (by decide) rfl [1, 2, 3]

/-- An adapter with five pending bytes. -/
def st5 : Adapter Bytes :=
  { src := { buf := [], inner := ⟨[], []⟩ }
    eng := xorEncEngine 4 [1, 2, 3, 4]
    s := []
    pending := [9, 8, 7, 6, 5]
    finalized := true
    exhausted := false
    poisoned := none
    finCount := 1 }

/-- Claim C5 witness: a 2-byte read on five pending bytes delivers
`[9, 8]`, keeps `[7, 6, 5]` pending, and the next read delivers exactly
that remainder. -/
theorem c5_partial_read_no_loss_witness :
    Adapter.read 2 st5 = ({ st5 with pending := [7, 6, 5] }, .ok [9, 8]) ∧
    ([9, 8] : Bytes) ++ [7, 6, 5] = [9, 8, 7, 6, 5] ∧
    (Adapter.read 5 { st5 with pending := [7, 6, 5] }).2 = .ok [7, 6, 5] :=
  c5_partial_read_no_loss 2 st5 rfl rfl (by decide)

/-- Claim C6 witness: a four-read drive of the concrete encryptor
invokes finalize exactly once, after the source was exhausted. -/
theorem c6_finalize_at_most_once_witness :
    (readMany [1, 5, 9, 1] wEc.reader).1.finCount ≤ 1 ∧
    (1 ≤ (readMany [1, 5, 9, 1] wEc.reader).1.finCount →
      (readMany [1, 5, 9, 1] wEc.reader).1.src.inner.events = []) :=
  c6_finalize_at_most_once wEc.reader (inv_of_fresh_fields _ rfl rfl rfl rfl rfl)
    [1, 5, 9, 1]

/-- A fresh adapter over a source that fails immediately, with
post-stream content `[7, 7]`. -/
def errA7 : Adapter Bytes :=
  { src := { buf := [], inner := ⟨[SEvent.ioErr 5], [7, 7]⟩ }
    eng := xorEncEngine 4 [1, 2, 3, 4]
    s := []
    pending := []
    finalized := false
    exhausted := false
    poisoned := none
    finCount := 0 }

/-- Claim C7 witness: the very first read on an adapter whose source
errors immediately returns that I/O error, with `pending` still empty,
nothing finalized, finalize never invoked, and no poisoning. -/
theorem c7_io_error_preserves_state_witness :
    ∃ st', Adapter.read 10 errA7 = (st', .error (.srcErr 5)) ∧
      st'.pending = errA7.pending ∧ st'.finalized = errA7.finalized ∧
      st'.finCount = errA7.finCount ∧ st'.poisoned = errA7.poisoned := by
  refine ⟨_, rfl, ?_, ?_, ?_, ?_⟩
  · exact (c7_io_error_preserves_state 10 errA7 _ 5 rfl).1
  · exact (c7_io_error_preserves_state 10 errA7 _ 5 rfl).2.1
  · exact (c7_io_error_preserves_state 10 errA7 _ 5 rfl).2.2.1
  · exact (c7_io_error_preserves_state 10 errA7 _ 5 rfl).2.2.2

/-- Claim C8 witness: constructing the encryptor and decryptor over a
source with one unread chunk and post-stream content touches neither. -/
theorem c8_construction_lazy_witness :
    ∃ wE wD,
      Encryptor.new ⟨[SEvent.chunk [1]], [2]⟩ (xorEncCipher 4) [1, 2, 3, 4] [9, 9, 9, 9]
        = .ok wE ∧
      Decryptor.new ⟨[SEvent.chunk [1]], [2]⟩ (xorDecCipher 4) [1, 2, 3, 4] [9, 9, 9, 9]
        = .ok wD ∧
      wE.reader.src.inner = ⟨[SEvent.chunk [1]], [2]⟩ ∧ wE.reader.src.buf = [] ∧
      wE.reader.pending = [] ∧ wE.reader.finalized = false ∧ wE.reader.finCount = 0 ∧
      wD.reader.src.inner = ⟨[SEvent.chunk [1]], [2]⟩ ∧ wD.reader.src.buf = [] ∧
      wD.reader.pending = [] ∧ wD.reader.finalized = false ∧ wD.reader.finCount = 0 :=
  c8_construction_lazy ⟨[SEvent.chunk [1]], [2]⟩ (xorEncCipher 4) (xorDecCipher 4)
    [1, 2, 3, 4] [9, 9, 9, 9] (xorEncEngine 4 [1, 2, 3, 4]) []
    (xorDecEngine 4 [1, 2, 3, 4]) [] rfl rfl

/-- Fresh encryptor over the empty source. -/
def wE9 : Encryptor Bytes :=
  { reader :=
    { src := { buf := [], inner := mkSource [] }
      eng := xorEncEngine 4 [1, 2, 3, 4]
      s := []
      pending := []
      finalized := false
      exhausted := false
      poisoned := none
      finCount := 0 } }

/-- Fresh decryptor over the one-padding-block ciphertext `[5, 6, 7, 0]`
of the empty plaintext. -/
def wD9 : Decryptor Bytes :=
  { reader :=
    { src := { buf := [], inner := mkSource (oneChunk [5, 6, 7, 0]) }
      eng := xorDecEngine 4 [1, 2, 3, 4]
      s := []
      pending := []
      finalized := false
      exhausted := false
      poisoned := none
      finCount := 0 } }

/-- Claim C9 witness: encrypting the empty input yields exactly the
engine's finalize-only output - for this padded engine one whole
4-byte padding block, `[5, 6, 7, 0]` - and decrypting it yields the
empty sequence. -/
theorem c9_empty_input_witness :
    (∃ f₁ stE, readAll (fun _ => 4) wE9.reader f₁
      = some (.ok (stE, [5, 6, 7, 0]))) ∧
    (∃ f₂ stD, readAll (fun _ => 4) wD9.reader f₂ = some (.ok (stD, []))) :=
  c9_empty_input (xorEncCipher 4) (xorDecCipher 4) [1, 2, 3, 4] [9, 9, 9, 9]
    [5, 6, 7, 0] [] (fun _ => 4) (fun _ => 4) wE9 wD9
    (fun _ => (by decide : (1 : Nat) ≤ 4)) (fun _ => (by decide : (1 : Nat) ≤ 4))
    rfl (by decide) rfl (by decide)
